import Mathlib

/-!
Verification of the multi-process pipe sort (`src/so-1321-3864/multi-pipe-sort.c`)
and of the rational-number library (`rational.c`) of this repository.

The C programs are shallowly embedded:

* A line travelling through the pipes is modelled as a `List Nat` of its bytes,
  *including* the terminating newline byte `10` that `fgets` keeps and `fputs`
  writes back.  C strings carry no interior NUL, so `strcmp` on them is modelled
  by `strcmp` below on the byte lists (the implicit final `'\0'`, which is
  strictly below every content byte, is what makes a proper prefix compare
  less; `strcmp [] (c :: t) = .lt` renders exactly that).
* The child processes communicate only whole lines, so `be_childish`,
  `distribute`, `read_line`, `not_all_done`, `min_line`, `merge` become pure
  functions on lists of lines; a worker's not-yet-consumed sorted output stream
  is a `List Line` whose head is the one line buffered in the merge frontier.
* `main` / `wait_for_kids` process bookkeeping is embedded as a function of the
  spawn results and of the sequence of `(pid, status)` pairs `waitpid` returns.
* `rational.c` is embedded over unbounded `Int` (the C code asserts that every
  intermediate fits in `int`), with C truncated division/remainder rendered as
  `Int.tdiv` / `Int.tmod`.
-/

/-- A line as it sits in a pipe or buffer: its bytes, ending in the newline
byte `10`.  (C strings additionally end in NUL, which is left implicit:
`strcmp` below builds the NUL into its base cases.) -/
abbrev Line := List Nat

/-- C `strcmp` on NUL-free byte strings (the implicit terminating NUL of a C
string is strictly smaller than every content byte, hence the `[]` cases). -/
def strcmp : Line → Line → Ordering
  | [], [] => .eq
  | [], _ :: _ => .lt
  | _ :: _, [] => .gt
  | c1 :: s1, c2 :: s2 =>
    if c1 < c2 then .lt else if c2 < c1 then .gt else strcmp s1 s2

/-- Relation: `s1` sorts no later than `s2` under `strcmp`: the order `qsort` establishes
in `be_childish` and `min_line` maintains during the merge. -/
def strle (s1 s2 : Line) : Prop := strcmp s1 s2 ≠ .gt

/-- Relation: `s1` sorts strictly before `s2` under `strcmp`. -/
def strlt (s1 s2 : Line) : Prop := strcmp s1 s2 = .lt

instance : DecidableRel strle := fun s1 s2 =>
  inferInstanceAs (Decidable (strcmp s1 s2 ≠ .gt))

instance : DecidableRel strlt := fun s1 s2 =>
  inferInstanceAs (Decidable (strcmp s1 s2 = .lt))

theorem strcmp_self (s : Line) : strcmp s s = .eq := by
  induction s with
  | nil => rfl
  | cons c t ih => simp [strcmp, ih]

theorem strcmp_eq_eq (s1 s2 : Line) (h : strcmp s1 s2 = .eq) : s1 = s2 := by
  induction s1 generalizing s2 with
  | nil => cases s2 with
    | nil => rfl
    | cons c2 t2 => simp [strcmp] at h
  | cons c1 t1 ih =>
    cases s2 with
    | nil => simp [strcmp] at h
    | cons c2 t2 =>
      simp only [strcmp] at h
      split at h
      · exact absurd h (by simp)
      · split at h
        · exact absurd h (by simp)
        · have : c1 = c2 := by omega
          rw [this, ih t2 h]

theorem strcmp_gt_iff (s1 s2 : Line) : strcmp s1 s2 = .gt ↔ strcmp s2 s1 = .lt := by
  induction s1 generalizing s2 with
  | nil => cases s2 <;> simp [strcmp]
  | cons c1 t1 ih =>
    cases s2 with
    | nil => simp [strcmp]
    | cons c2 t2 =>
      simp only [strcmp]
      rcases Nat.lt_trichotomy c1 c2 with h | h | h
      · simp [h, Nat.not_lt.mpr (Nat.le_of_lt h), Nat.lt_irrefl]
      · subst h
        simp [Nat.lt_irrefl, ih]
      · simp [h, Nat.not_lt.mpr (Nat.le_of_lt h), Nat.lt_irrefl]

theorem strlt_trans {s1 s2 s3 : Line} (h12 : strlt s1 s2) (h23 : strlt s2 s3) :
    strlt s1 s3 := by
  unfold strlt at *
  induction s1 generalizing s2 s3 with
  | nil =>
    cases s3 with
    | nil =>
      cases s2 with
      | nil => simp [strcmp] at h12
      | cons c2 t2 => simp [strcmp] at h23
    | cons c3 t3 => rfl
  | cons c1 t1 ih =>
    cases s2 with
    | nil => simp [strcmp] at h12
    | cons c2 t2 =>
      cases s3 with
      | nil => simp [strcmp] at h23
      | cons c3 t3 =>
        simp only [strcmp] at h12 h23 ⊢
        split at h12
        · -- c1 < c2
          split at h23
          · simp [show c1 < c3 by omega]
          · split at h23
            · exact absurd h23 (by simp)
            · have : c2 = c3 := by omega
              simp [show c1 < c3 by omega]
        · split at h12
          · exact absurd h12 (by simp)
          · -- c1 = c2
            have hc : c1 = c2 := by omega
            split at h23
            · simp [show c1 < c3 by omega]
            · split at h23
              · exact absurd h23 (by simp)
              · have : c2 = c3 := by omega
                have hlt : ¬ c1 < c3 := by omega
                have hgt : ¬ c3 < c1 := by omega
                simp [hlt, hgt]
                exact ih h12 h23

theorem strle_iff (s1 s2 : Line) :
    strle s1 s2 ↔ strlt s1 s2 ∨ s1 = s2 := by
  unfold strle strlt
  constructor
  · intro h
    cases hc : strcmp s1 s2 with
    | lt => exact Or.inl rfl
    | eq => exact Or.inr (strcmp_eq_eq _ _ hc)
    | gt => exact absurd hc h
  · rintro (h | rfl)
    · simp [h]
    · simp [strcmp_self]

theorem strle_refl (s : Line) : strle s s := by
  simp [strle, strcmp_self]

theorem strle_of_strlt {s1 s2 : Line} (h : strlt s1 s2) : strle s1 s2 :=
  (strle_iff s1 s2).mpr (Or.inl h)

theorem strlt_of_le_of_lt {s1 s2 s3 : Line} (h12 : strle s1 s2) (h23 : strlt s2 s3) :
    strlt s1 s3 := by
  rcases (strle_iff s1 s2).mp h12 with h | rfl
  · exact strlt_trans h h23
  · exact h23

theorem strlt_of_lt_of_le {s1 s2 s3 : Line} (h12 : strlt s1 s2) (h23 : strle s2 s3) :
    strlt s1 s3 := by
  rcases (strle_iff s2 s3).mp h23 with h | rfl
  · exact strlt_trans h12 h
  · exact h12

theorem strle_trans {s1 s2 s3 : Line} (h12 : strle s1 s2) (h23 : strle s2 s3) :
    strle s1 s3 := by
  rcases (strle_iff s1 s2).mp h12 with h | rfl
  · exact strle_of_strlt (strlt_of_lt_of_le h h23)
  · exact h23

theorem strle_total (s1 s2 : Line) : strle s1 s2 ∨ strle s2 s1 := by
  unfold strle
  cases hc : strcmp s1 s2 with
  | lt => exact Or.inl (by simp)
  | eq => exact Or.inl (by simp)
  | gt =>
    refine Or.inr ?_
    rw [(strcmp_gt_iff s1 s2).mp hc]
    simp

theorem strle_antisymm {s1 s2 : Line} (h12 : strle s1 s2) (h21 : strle s2 s1) :
    s1 = s2 := by
  rcases (strle_iff s1 s2).mp h12 with h | rfl
  · exact absurd ((strcmp_gt_iff s2 s1).mpr h) h21
  · rfl

theorem not_strle_iff (s1 s2 : Line) : ¬ strle s1 s2 ↔ strlt s2 s1 := by
  unfold strle strlt
  rw [not_ne_iff, strcmp_gt_iff]

instance : IsTotal Line strle := ⟨strle_total⟩

instance : IsTrans Line strle := ⟨fun _ _ _ => strle_trans⟩

instance : IsAntisymm Line strle := ⟨fun _ _ => strle_antisymm⟩

instance : IsRefl Line strle := ⟨strle_refl⟩

/-! ## The worker: `be_childish` (multi-pipe-sort.c lines 120-150) -/

/-- Comparator `qs_compare`: hands the two line pointers to `strcmp`. -/
def qs_compare (s1 s2 : Line) : Ordering := strcmp s1 s2

/-- Worker `be_childish`: the child reads every line `fgets` delivers on its pipe,
`qsort`s the array with `qs_compare`, and writes the lines back in order.
`qs_compare` is antisymmetric up to equality of the line bytes (lines that
compare `.eq` are byte-identical), so the sorted permutation of the input is
unique and `qsort`'s output, as a list of line values, is exactly the output
of insertion sort by `strle` (`qs_compare _ _ ≠ .gt`). -/
def be_childish (input : List Line) : List Line := List.insertionSort strle input

/-! ## The distributor: `distribute` (multi-pipe-sort.c lines 152-171) -/

/-- One `fputs(input, kids[n].fp_to)`: append the line to worker `n`'s
inbound stream. -/
def send (n : Nat) (l : Line) (shares : List (List Line)) : List (List Line) :=
  shares.set n (shares.getD n [] ++ [l])

/-- The `while (fgets(...))` loop of `distribute`: write the line to worker
`n`, then `if (++n >= nkids) n = 0`. -/
def distribute_loop (nkids : Nat) : List Line → Nat → List (List Line) → List (List Line)
  | [], _, shares => shares
  | l :: rest, n, shares =>
      distribute_loop nkids rest (if n + 1 ≥ nkids then 0 else n + 1) (send n l shares)

/-- Distributor `distribute`: round-robin the input lines over the `nkids` inbound
streams, cursor starting at worker 0; closing the pipes at the end carries no
data.  Each worker's share is the list of lines it will receive, in order. -/
def distribute (nkids : Nat) (input : List Line) : List (List Line) :=
  distribute_loop nkids input 0 (List.replicate nkids [])

/-! ## The merger (multi-pipe-sort.c lines 173-236)

During `merge`, worker `i`'s state is the list of its sorted output lines not
yet written by the parent to standard output; its head is the one line
buffered in `lines[i]` (the merge frontier), the tail is still in the pipe.
`len[i] > 0` iff that list is nonempty (`len[i] = -1` once `fgets` hit
end-of-stream; a successful `fgets` always yields a nonempty,
newline-terminated string, so `len[i] = 0` never occurs). -/

/-- Model of `read_line`: pull the next line of a worker's stream into the frontier
buffer; `none` models `len = -1` (end-of-stream, `fp_from` closed). -/
def read_line (stream : List Line) : Option Line × List Line :=
  (stream.head?, stream.tail)

/-- Guard `not_all_done`: some worker still has `len[i] > 0`, i.e. a buffered line. -/
def not_all_done (streams : List (List Line)) : Bool :=
  streams.any (fun s => ! s.isEmpty)

/-- The scan loop of `min_line`: walk the worker slots in index order
(absolute index `i` onward), skip exhausted slots (`len[i] <= 0`), and replace
the current best `(min_kid, min_str)` only on a strict improvement
(`strcmp(min_str, lines[i]) > 0`); `none` models `min_str == 0`. -/
def min_scan : List (List Line) → Nat → Option (Nat × Line) → Option (Nat × Line)
  | [], _, acc => acc
  | stream :: rest, i, acc =>
    match stream with
    | [] => min_scan rest (i + 1) acc
    | h :: _ =>
      match acc with
      | none => min_scan rest (i + 1) (some (i, h))
      | some (mk, ms) =>
        if strcmp ms h = .gt then min_scan rest (i + 1) (some (i, h))
        else min_scan rest (i + 1) (some (mk, ms))

/-- Selection part of `min_line` (multi-pipe-sort.c lines 199-215) up to its final `strcpy` and
refill: the slot index and buffered line the scan selects. -/
def min_line (streams : List (List Line)) : Option (Nat × Line) :=
  min_scan streams 0 none

/-- The refill at the end of `min_line`: `read_line(&kids[min_kid], ...)`
replaces slot `min_kid`'s buffered head by the next line of its stream. -/
def refill (streams : List (List Line)) (k : Nat) : List (List Line) :=
  streams.set k (streams.getD k []).tail

theorem min_scan_some (streams : List (List Line)) :
    ∀ i acc k s, min_scan streams i acc = some (k, s) →
      acc = some (k, s) ∨
        ∃ j, j < streams.length ∧ k = i + j ∧ (streams.getD j []).head? = some s := by
  induction streams with
  | nil => intro i acc k s h; exact Or.inl h
  | cons stream rest ih =>
    intro i acc k s h
    have shift : (∃ j, j < rest.length ∧ k = (i + 1) + j ∧ (rest.getD j []).head? = some s) →
        ∃ j, j < (stream :: rest).length ∧ k = i + j ∧
          ((stream :: rest).getD j []).head? = some s := by
      rintro ⟨j, hj, hk, hh⟩
      exact ⟨j + 1, by simpa using hj, by omega, by simpa [List.getD_cons_succ] using hh⟩
    cases stream with
    | nil =>
      rcases ih (i + 1) acc k s (by simpa [min_scan] using h) with h' | hs
      · exact Or.inl h'
      · exact Or.inr (shift hs)
    | cons c t =>
      have first : min_scan rest (i + 1) (some (i, c)) = some (k, s) →
          acc = some (k, s) ∨
            ∃ j, j < (List.cons c t :: rest).length ∧ k = i + j ∧
              ((List.cons c t :: rest).getD j []).head? = some s := by
        intro h'
        rcases ih (i + 1) _ k s h' with h'' | hs
        · injection h'' with h3
          injection h3 with h4 h5
          exact Or.inr ⟨0, by simp, by omega, by simp [List.getD_cons_zero, h5]⟩
        · exact Or.inr (shift hs)
      cases acc with
      | none => exact first (by simpa [min_scan] using h)
      | some p =>
        obtain ⟨mk, ms⟩ := p
        by_cases hgt : strcmp ms c = .gt
        · exact first (by simpa [min_scan, hgt] using h)
        · have h' : min_scan rest (i + 1) (some (mk, ms)) = some (k, s) := by
            simpa [min_scan, hgt] using h
          rcases ih (i + 1) _ k s h' with h'' | hs
          · exact Or.inl h''
          · exact Or.inr (shift hs)

theorem min_line_some {streams : List (List Line)} {k : Nat} {s : Line}
    (h : min_line streams = some (k, s)) :
    k < streams.length ∧ (streams.getD k []).head? = some s := by
  rcases min_scan_some streams 0 none k s h with h' | ⟨j, hj, hk, hh⟩
  · exact absurd h' (by simp)
  · have hjk : j = k := by omega
    subst hjk
    exact ⟨hj, hh⟩

theorem sum_refill_lt (streams : List (List Line)) (k : Nat)
    (hne : streams.getD k [] ≠ []) :
    ((refill streams k).map List.length).sum < ((streams.map List.length).sum) := by
  induction streams generalizing k with
  | nil => simp at hne
  | cons stream rest ih =>
    cases k with
    | zero =>
      cases stream with
      | nil => simp at hne
      | cons c t => simp [refill]
    | succ k' =>
      have := ih k' (by simpa using hne)
      simp only [refill] at this ⊢
      simpa using this

/-- The `while (not_all_done(...))` loop of `merge` (multi-pipe-sort.c lines
231-235): emit the selected minimum, refill that worker's buffer, repeat.  The
`none` branch is unreachable under the loop guard (claim C10); the C code
would dereference a null pointer there. -/
def merge_loop (streams : List (List Line)) : List Line :=
  if not_all_done streams then
    match hm : min_line streams with
    | none => []
    | some (k, _s) => _s :: merge_loop (refill streams k)
  else []
termination_by (streams.map List.length).sum
decreasing_by
  have h := min_line_some hm
  exact sum_refill_lt streams k (by
    intro hnil
    rw [hnil] at h
    simp at h)

/-- Merger `merge` (multi-pipe-sort.c lines 217-236): the preload phase fills each
slot's buffer with the head of its stream — in this embedding a worker's slot
*is* its remaining stream, head first — after which the loop runs. -/
def merge (streams : List (List Line)) : List Line := merge_loop streams

/-- Worker-pool size `NUM_KIDS` in `main`. -/
def NUM_KIDS : Nat := 5

/-- The whole data path of `main`: `distribute`, the workers' sorts, `merge`. -/
def pipeline (nkids : Nat) (input : List Line) : List Line :=
  merge ((distribute nkids input).map be_childish)

open List hiding merge

/-! ## Supervisor exit behaviour (multi-pipe-sort.c lines 28-92, 238-258) -/

/-- The spawn loop of `main`: `make_kid` is attempted for workers `0..` in
order; the result list records success per worker.  The first failure hits
`err_exit("Fault starting child %d\n", i)`. -/
def spawn_failure (spawn_ok : List Bool) : Option Nat :=
  spawn_ok.findIdx? (fun b => ! b)

/-- One pass of the `waitpid` loop body in `wait_for_kids` for the return
value `ev = (pid, status)`: every table entry equal to `pid` is overwritten
with `-1`.  The `status` that `waitpid` filled in is never examined — the
loop body reads only `pid`. -/
def reap_step (pids : List Int) (ev : Int × Nat) : List Int :=
  pids.map (fun p => if p = ev.1 then -1 else p)

/-- Reaper `wait_for_kids`: fold the sequence of `waitpid` returns over the pid
table, then run the final check loop; `true` models a normal return, `false`
the `err_exit("Child %d died without being tracked\n", ...)` path. -/
def wait_for_kids (pids : List Int) (events : List (Int × Nat)) : Bool :=
  (events.foldl reap_step pids).all (fun p => p = -1)

/-- The exit behaviour of `main`: `(exit code, worker index named in the
"Fault starting child" diagnostic, if any)`.  `pids` is the table of the
spawned workers' process ids; `events` the `(pid, status)` pairs `waitpid`
delivers.  When some `make_kid` fails, `main` exits `1` naming that worker;
otherwise it runs `distribute`, `merge` and `wait_for_kids` and returns `0`
(the untracked-child branch of `wait_for_kids` exits `1` with a
pid-naming diagnostic, modelled as no worker index). -/
def main_exit (spawn_ok : List Bool) (pids : List Int) (events : List (Int × Nat)) :
    Nat × Option Nat :=
  match spawn_failure spawn_ok with
  | some i => (1, some i)
  | none => if wait_for_kids pids events then (0, none) else (1, none)

/-! ## Spec-side descriptions (for the refinement-style claims) -/

/-- Spec-side description of round-robin distribution, following the claim's
words: the line at absolute index `idx` (counting from 0) belongs to worker
`w` exactly when `idx % nkids = w`.  `roundRobinSpec nkids w input idx` is
worker `w`'s share of `input` when `input`'s first line has absolute index
`idx`. -/
def roundRobinSpec (nkids w : Nat) : List Line → Nat → List Line
  | [], _ => []
  | l :: rest, idx =>
    (if idx % nkids = w then [l] else []) ++ roundRobinSpec nkids w rest (idx + 1)

/-- An input record as claim C1 constrains it: a newline-terminated line
whose content bytes are nonzero non-newline bytes and which fits the
`MAX_LINE`-byte buffer together with its newline and NUL. -/
def ValidRecord (l : Line) : Prop :=
  ∃ c : List Nat,
    l = c ++ [10] ∧ (∀ b ∈ c, 0 < b ∧ b < 256 ∧ b ≠ 10) ∧ c.length + 2 ≤ 4096

/-! ## The rational library (`rational.c`), over unbounded integers -/

namespace RationalC

structure RationalInt where
  numerator : Int
  denominator : Int

/-- Absolute value `iabs` (rational.c line 39). -/
def iabs (x : Int) : Int := if x < 0 then -x else x

/-- Modelled from the spec: `gcd.h` is not part of the repository's sources;
the spec's storage rule 4 ("reduced to lowest terms", `gcd(numerator,
denominator) == 1`) reads `gcd` as the standard greatest common divisor, here
of the two (nonnegative, as called) integers. -/
def gcd (x y : Int) : Int := (Int.gcd x y : Int)

/-- Fact: `Int.natAbs` commutes with C's truncated remainder. -/
theorem natAbs_tmod (x y : Int) : (x.tmod y).natAbs = x.natAbs % y.natAbs := by
  rcases x with m | m <;> rcases y with n | n
  · rfl
  · rfl
  · show (-(Int.ofNat (Nat.succ m % n))).natAbs = _
    rw [Int.natAbs_neg]; rfl
  · show (-(Int.ofNat (Nat.succ m % Nat.succ n))).natAbs = _
    rw [Int.natAbs_neg]; rfl

/-- The `while ((r = x % y) != 0)` loop of `gcd_ll` (rational.c lines 56-61),
entered with `y ≠ 0` (C `%` is `Int.tmod`; the `y = 0` guard only renders the
division-by-zero the C loop cannot reach, since `gcd_ll` rejects zero
arguments and the loop re-enters only with a nonzero remainder). -/
def gcd_ll_loop (x y : Int) : Int :=
  if _hy : y = 0 then y
  else
    let r := x.tmod y
    if r = 0 then y else gcd_ll_loop y r
termination_by y.natAbs
decreasing_by
  rw [natAbs_tmod]
  exact Nat.mod_lt _ (Int.natAbs_pos.mpr _hy)

/-- Euclid `gcd_ll` (rational.c lines 49-62): returns 0 when either argument is 0. -/
def gcd_ll (x y : Int) : Int :=
  if x = 0 ∨ y = 0 then 0 else gcd_ll_loop x y

/-- The storage rules `ri_chk` asserts (rational.c lines 42-47), minus the
`INT_MIN` clause that is vacuous over unbounded integers: nonzero
denominator, nonnegative numerator, lowest terms unless the numerator is 0. -/
def ri_chk (val : RationalInt) : Prop :=
  val.denominator ≠ 0 ∧ 0 ≤ val.numerator ∧
    (val.numerator = 0 ∨ gcd (iabs val.numerator) (iabs val.denominator) = 1)

/-- Constructor `ri_new` (rational.c lines 64-83).  C's `sign * iabs(denominator) / dv`
parses as `(sign * iabs(denominator)) / dv` with truncated division. -/
def ri_new (numerator denominator : Int) : RationalInt :=
  if numerator = 0 then { numerator := 0, denominator := 1 }
  else
    let sign : Int :=
      1 - 2 * (if (numerator < 0 ∧ 0 < denominator) ∨ (0 < numerator ∧ denominator < 0)
               then 1 else 0)
    let dv := gcd (iabs numerator) (iabs denominator)
    { numerator := (iabs numerator).tdiv dv
      denominator := (sign * iabs denominator).tdiv dv }

/-- Addition `ri_add` (rational.c lines 85-97), over unbounded integers (the C code
asserts the `long long` results fit in `int`). -/
def ri_add (lhs rhs : RationalInt) : RationalInt :=
  let rn := lhs.numerator * rhs.denominator + rhs.numerator * lhs.denominator
  if rn = 0 then ri_new 0 1
  else
    let rd := lhs.denominator * rhs.denominator
    let dv := gcd_ll rn rd
    ri_new (rn.tdiv dv) (rd.tdiv dv)

/-- Subtraction `ri_sub` (rational.c lines 99-111). -/
def ri_sub (lhs rhs : RationalInt) : RationalInt :=
  let rn := lhs.numerator * rhs.denominator - rhs.numerator * lhs.denominator
  if rn = 0 then ri_new 0 1
  else
    let rd := lhs.denominator * rhs.denominator
    let dv := gcd_ll rn rd
    ri_new (rn.tdiv dv) (rd.tdiv dv)

/-- Multiplication `ri_mul` (rational.c lines 113-125). -/
def ri_mul (lhs rhs : RationalInt) : RationalInt :=
  let rn := lhs.numerator * rhs.numerator
  if rn = 0 then ri_new 0 1
  else
    let rd := lhs.denominator * rhs.denominator
    let dv := gcd_ll rn rd
    ri_new (rn.tdiv dv) (rd.tdiv dv)

/-- Division `ri_div` (rational.c lines 127-140); `rhs.numerator ≠ 0` is asserted. -/
def ri_div (lhs rhs : RationalInt) : RationalInt :=
  if lhs.numerator = 0 then ri_new 0 1
  else
    let rn := lhs.numerator * rhs.denominator
    let rd := lhs.denominator * rhs.numerator
    let dv := gcd_ll rn rd
    ri_new (rn.tdiv dv) (rd.tdiv dv)

end RationalC

/-! ## Merge correctness lemmas -/

theorem getD_set (l : List (List Line)) (n w : Nat) (v : List Line) :
    n < l.length → (l.set n v).getD w [] = if w = n then v else l.getD w [] := by
  induction l generalizing n w with
  | nil => intro h; simp at h
  | cons a rest ih =>
    intro hn
    cases n with
    | zero =>
      cases w with
      | zero => simp
      | succ w' => simp
    | succ n' =>
      cases w with
      | zero => simp
      | succ w' =>
        have := ih n' w' (by simpa using hn)
        simpa using this

theorem flatten_refill_perm (streams : List (List Line)) (k : Nat) (s0 : Line)
    (t : List Line) (h : streams.getD k [] = s0 :: t) (hk : k < streams.length) :
    streams.flatten ~ s0 :: (refill streams k).flatten := by
  induction streams generalizing k with
  | nil => simp at hk
  | cons a rest ih =>
    cases k with
    | zero =>
      simp only [List.getD_cons_zero] at h
      subst h
      simp [refill]
    | succ k' =>
      have h' : rest.getD k' [] = s0 :: t := by simpa using h
      have hk' : k' < rest.length := by simpa using hk
      have ihp := ih k' h' hk'
      have : a ++ rest.flatten ~ a ++ (s0 :: (refill rest k').flatten) :=
        ihp.append_left a
      simp only [refill] at *
      calc (a :: rest).flatten = a ++ rest.flatten := by simp
        _ ~ a ++ (s0 :: (refill rest k').flatten) := this
        _ ~ s0 :: (a ++ (refill rest k').flatten) := List.perm_middle
        _ = s0 :: ((a :: rest.set k' (rest.getD k' []).tail).flatten) := by
              simp [refill]

theorem mem_flatten_refill {streams : List (List Line)} {k : Nat} {x : Line}
    (h : x ∈ (refill streams k).flatten) : x ∈ streams.flatten := by
  rw [List.mem_flatten] at h ⊢
  obtain ⟨t, ht, hx⟩ := h
  rcases List.mem_or_eq_of_mem_set ht with ht' | rfl
  · exact ⟨t, ht', hx⟩
  · by_cases hk : k < streams.length
    · refine ⟨streams.getD k [], ?_, List.mem_of_mem_tail hx⟩
      rw [List.getD_eq_getElem streams [] hk]
      exact List.getElem_mem hk
    · rw [List.getD_eq_default streams [] (Nat.le_of_not_lt hk)] at hx
      simp at hx

theorem sorted_refill {streams : List (List Line)} {k : Nat}
    (h : ∀ t ∈ streams, Sorted strle t) :
    ∀ t ∈ refill streams k, Sorted strle t := by
  intro t ht
  rcases List.mem_or_eq_of_mem_set ht with ht' | rfl
  · exact h t ht'
  · by_cases hk : k < streams.length
    · have := h (streams.getD k []) (by
        rw [List.getD_eq_getElem streams [] hk]; exact List.getElem_mem hk)
      exact this.tail
    · rw [List.getD_eq_default streams [] (Nat.le_of_not_lt hk)]
      simp

theorem min_scan_acc_le (streams : List (List Line)) :
    ∀ i k0 s0 k s, min_scan streams i (some (k0, s0)) = some (k, s) → strle s s0 := by
  induction streams with
  | nil =>
    intro i k0 s0 k s h
    injection h with h1
    injection h1 with h2 h3
    subst h3; exact strle_refl _
  | cons stream rest ih =>
    intro i k0 s0 k s h
    cases stream with
    | nil => exact ih (i + 1) k0 s0 k s (by simpa [min_scan] using h)
    | cons c t =>
      by_cases hgt : strcmp s0 c = .gt
      · have h' : min_scan rest (i + 1) (some (i, c)) = some (k, s) := by
          simpa [min_scan, hgt] using h
        have hsc : strle s c := ih (i + 1) i c k s h'
        exact strle_of_strlt (strlt_of_le_of_lt hsc ((strcmp_gt_iff _ _).mp hgt))
      · exact ih (i + 1) k0 s0 k s (by simpa [min_scan, hgt] using h)

theorem min_scan_min (streams : List (List Line)) :
    ∀ i acc k s, min_scan streams i acc = some (k, s) →
      ∀ t ∈ streams, ∀ h', t.head? = some h' → strle s h' := by
  induction streams with
  | nil => intro i acc k s _ t ht; simp at ht
  | cons stream rest ih =>
    intro i acc k s h t ht h' hh
    rcases List.mem_cons.mp ht with rfl | ht'
    · -- t is the first stream; it has a head, so it is c :: _
      cases t with
      | nil => simp at hh
      | cons c t0 =>
        have hc : h' = c := by simpa using hh.symm
        rw [hc]
        cases acc with
        | none =>
          have h2 : min_scan rest (i + 1) (some (i, c)) = some (k, s) := by
            simpa [min_scan] using h
          exact min_scan_acc_le rest (i + 1) i c k s h2
        | some p =>
          obtain ⟨mk, ms⟩ := p
          by_cases hgt : strcmp ms c = .gt
          · have h2 : min_scan rest (i + 1) (some (i, c)) = some (k, s) := by
              simpa [min_scan, hgt] using h
            exact min_scan_acc_le rest (i + 1) i c k s h2
          · have h2 : min_scan rest (i + 1) (some (mk, ms)) = some (k, s) := by
              simpa [min_scan, hgt] using h
            have hs_ms : strle s ms := min_scan_acc_le rest (i + 1) mk ms k s h2
            have hms_c : strle ms c := by simpa [strle] using hgt
            exact strle_trans hs_ms hms_c
    · -- t is in the tail: recurse with whatever accumulator the step leaves
      cases stream with
      | nil => exact ih (i + 1) acc k s (by simpa [min_scan] using h) t ht' h' hh
      | cons c t0 =>
        cases acc with
        | none =>
          exact ih (i + 1) (some (i, c)) k s (by simpa [min_scan] using h) t ht' h' hh
        | some p =>
          obtain ⟨mk, ms⟩ := p
          by_cases hgt : strcmp ms c = .gt
          · exact ih (i + 1) (some (i, c)) k s (by simpa [min_scan, hgt] using h) t ht' h' hh
          · exact ih (i + 1) (some (mk, ms)) k s (by simpa [min_scan, hgt] using h) t ht' h' hh

theorem min_line_min {streams : List (List Line)} {k : Nat} {s : Line}
    (h : min_line streams = some (k, s))
    (hsorted : ∀ t ∈ streams, Sorted strle t) :
    ∀ x ∈ streams.flatten, strle s x := by
  intro x hx
  rw [List.mem_flatten] at hx
  obtain ⟨t, ht, hxt⟩ := hx
  cases t with
  | nil => simp at hxt
  | cons c t0 =>
    have hhead : strle s c := min_scan_min streams 0 none k s h _ ht c (by simp)
    rcases List.mem_cons.mp hxt with rfl | hxt'
    · exact hhead
    · exact strle_trans hhead (List.rel_of_sorted_cons (hsorted _ ht) x hxt')

theorem min_scan_ne_none_of_acc (streams : List (List Line)) :
    ∀ i a, min_scan streams i (some a) ≠ none := by
  induction streams with
  | nil => intro i a h; simp [min_scan] at h
  | cons stream rest ih =>
    intro i a h
    obtain ⟨k0, s0⟩ := a
    cases stream with
    | nil => exact ih (i + 1) (k0, s0) (by simpa [min_scan] using h)
    | cons c t =>
      by_cases hgt : strcmp s0 c = .gt
      · exact ih (i + 1) (i, c) (by simpa [min_scan, hgt] using h)
      · exact ih (i + 1) (k0, s0) (by simpa [min_scan, hgt] using h)

theorem min_scan_none (streams : List (List Line)) :
    ∀ i, min_scan streams i none = none → ∀ t ∈ streams, t = [] := by
  induction streams with
  | nil => intro i _ t ht; simp at ht
  | cons stream rest ih =>
    intro i h t ht
    cases stream with
    | nil =>
      rcases List.mem_cons.mp ht with rfl | ht'
      · rfl
      · exact ih (i + 1) (by simpa [min_scan] using h) t ht'
    | cons c t0 =>
      exact absurd (by simpa [min_scan] using h)
        (min_scan_ne_none_of_acc rest (i + 1) (i, c))

theorem not_all_done_iff (streams : List (List Line)) :
    not_all_done streams = true ↔ ∃ t ∈ streams, t ≠ [] := by
  simp [not_all_done, List.isEmpty_iff]

theorem merge_loop_some_eq {streams : List (List Line)} {k : Nat} {s : Line}
    (h : not_all_done streams = true) (hm : min_line streams = some (k, s)) :
    merge_loop streams = s :: merge_loop (refill streams k) := by
  rw [merge_loop, if_pos h]
  split
  · simp_all
  · rename_i k' s' heq
    rw [hm] at heq
    injection heq with heq1
    injection heq1 with hk hs
    rw [hk, hs]

theorem merge_loop_not_eq {streams : List (List Line)}
    (h : not_all_done streams = false) : merge_loop streams = [] := by
  rw [merge_loop]
  simp [h]

theorem merge_loop_perm (streams : List (List Line)) :
    merge_loop streams ~ streams.flatten := by
  induction streams using merge_loop.induct with
  | case1 x h hm =>
    obtain ⟨t, ht, hne⟩ := (not_all_done_iff x).mp h
    exact absurd (min_scan_none x 0 hm t ht) hne
  | case2 x h k s hm ih =>
    rw [merge_loop_some_eq h hm]
    obtain ⟨hk, hhead⟩ := min_line_some hm
    obtain ⟨t, hgd⟩ : ∃ t, x.getD k [] = s :: t := by
      cases hx : x.getD k [] with
      | nil => rw [hx] at hhead; simp at hhead
      | cons a b =>
        rw [hx] at hhead
        simp only [List.head?_cons, Option.some_inj] at hhead
        exact ⟨b, by rw [hhead]⟩
    exact (ih.cons s).trans (flatten_refill_perm x k s t hgd hk).symm
  | case3 x h =>
    rw [merge_loop_not_eq (Bool.not_eq_true _ ▸ by simpa using h)]
    have hall : ∀ t ∈ x, t = [] := by
      intro t ht
      by_contra hne
      exact h ((not_all_done_iff x).mpr ⟨t, ht, hne⟩)
    have : x.flatten = [] := by
      rw [List.flatten_eq_nil_iff]
      exact hall
    rw [this]

theorem merge_loop_sorted :
    ∀ streams : List (List Line), (∀ t ∈ streams, Sorted strle t) →
      Sorted strle (merge_loop streams) := by
  intro streams
  induction streams using merge_loop.induct with
  | case1 x h hm =>
    intro _
    obtain ⟨t, ht, hne⟩ := (not_all_done_iff x).mp h
    exact absurd (min_scan_none x 0 hm t ht) hne
  | case2 x h k s hm ih =>
    intro hs
    rw [merge_loop_some_eq h hm]
    rw [List.sorted_cons]
    refine ⟨fun b hb => ?_, ih (sorted_refill hs)⟩
    have hb' : b ∈ (refill x k).flatten := (merge_loop_perm _).mem_iff.mp hb
    exact min_line_min hm hs b (mem_flatten_refill hb')
  | case3 x h =>
    intro _
    rw [merge_loop_not_eq (Bool.not_eq_true _ ▸ by simpa using h)]
    simp

theorem flatten_map_be_childish (streams : List (List Line)) :
    (streams.map be_childish).flatten ~ streams.flatten := by
  induction streams with
  | nil => rfl
  | cons a rest ih =>
    simp only [List.map_cons, List.flatten_cons]
    exact (List.perm_insertionSort strle a).append ih

theorem sorted_be_childish (l : List Line) : Sorted strle (be_childish l) :=
  List.sorted_insertionSort strle l

theorem perm_be_childish (l : List Line) : be_childish l ~ l :=
  List.perm_insertionSort strle l

theorem merge_eq_sort {streams : List (List Line)}
    (hs : ∀ t ∈ streams, Sorted strle t) :
    merge streams = be_childish streams.flatten :=
  List.eq_of_perm_of_sorted
    ((merge_loop_perm streams).trans (perm_be_childish _).symm)
    (merge_loop_sorted _ hs) (sorted_be_childish _)

/-! ## Distributor lemmas -/

theorem distribute_loop_length (nkids : Nat) :
    ∀ (input : List Line) (n : Nat) (shares : List (List Line)),
      (distribute_loop nkids input n shares).length = shares.length := by
  intro input
  induction input with
  | nil => intro n shares; rfl
  | cons l rest ih =>
    intro n shares
    simp only [distribute_loop]
    rw [ih]
    simp [send]

theorem flatten_send_perm (n : Nat) (l : Line) (shares : List (List Line))
    (hn : n < shares.length) :
    (send n l shares).flatten ~ l :: shares.flatten := by
  induction shares generalizing n with
  | nil => simp at hn
  | cons a rest ih =>
    cases n with
    | zero =>
      simp only [send, List.getD_cons_zero, List.set_cons_zero, List.flatten_cons]
      calc (a ++ [l]) ++ rest.flatten = a ++ (l :: rest.flatten) := by simp
        _ ~ l :: (a ++ rest.flatten) := List.perm_middle
    | succ n' =>
      have hn' : n' < rest.length := by simpa using hn
      have := (ih n' hn').append_left a
      simp only [send] at this ⊢
      calc (a :: rest.set n' (rest.getD n' [] ++ [l])).flatten
            = a ++ (rest.set n' (rest.getD n' [] ++ [l])).flatten := by simp
        _ ~ a ++ (l :: rest.flatten) := this
        _ ~ l :: (a ++ rest.flatten) := List.perm_middle
        _ = l :: (a :: rest).flatten := by simp

theorem distribute_loop_flatten_perm (nkids : Nat) :
    ∀ (input : List Line) (n : Nat) (shares : List (List Line)),
      shares.length = nkids → n < nkids →
      (distribute_loop nkids input n shares).flatten ~ shares.flatten ++ input := by
  intro input
  induction input with
  | nil => intro n shares _ _; simp [distribute_loop]
  | cons l rest ih =>
    intro n shares hlen hn
    simp only [distribute_loop]
    have hlen' : (send n l shares).length = nkids := by simp [send, hlen]
    have hn' : (if n + 1 ≥ nkids then 0 else n + 1) < nkids := by
      by_cases hc : n + 1 ≥ nkids
      · rw [if_pos hc]; omega
      · rw [if_neg hc]; omega
    calc (distribute_loop nkids rest (if n + 1 ≥ nkids then 0 else n + 1)
            (send n l shares)).flatten
        ~ (send n l shares).flatten ++ rest := ih _ _ hlen' hn'
      _ ~ (l :: shares.flatten) ++ rest :=
          (flatten_send_perm n l shares (by omega)).append_right rest
      _ = l :: (shares.flatten ++ rest) := by simp
      _ ~ shares.flatten ++ l :: rest := List.perm_middle.symm

theorem distribute_flatten_perm (nkids : Nat) (h : 0 < nkids) (input : List Line) :
    (distribute nkids input).flatten ~ input := by
  have := distribute_loop_flatten_perm nkids input 0 (List.replicate nkids [])
    (by simp) h
  rwa [List.flatten_replicate_nil] at this

theorem distribute_length (nkids : Nat) (input : List Line) :
    (distribute nkids input).length = nkids := by
  rw [distribute, distribute_loop_length]
  simp

theorem cursor_step (idx nkids : Nat) (h : 0 < nkids) :
    (if idx % nkids + 1 ≥ nkids then 0 else idx % nkids + 1) = (idx + 1) % nkids := by
  by_cases hone : nkids = 1
  · subst hone
    simp [Nat.mod_one]
  · have h1 : idx % nkids < nkids := Nat.mod_lt _ h
    have h2 : 1 % nkids = 1 := Nat.mod_eq_of_lt (by omega)
    rw [Nat.add_mod idx 1, h2]
    by_cases hc : idx % nkids + 1 ≥ nkids
    · have h3 : idx % nkids = nkids - 1 := by omega
      rw [if_pos hc, h3]
      have h4 : nkids - 1 + 1 = nkids := by omega
      rw [h4, Nat.mod_self]
    · rw [if_neg hc]
      exact (Nat.mod_eq_of_lt (by omega)).symm

theorem distribute_loop_getD (nkids : Nat) (h : 0 < nkids) :
    ∀ (input : List Line) (idx : Nat) (shares : List (List Line)) (w : Nat),
      shares.length = nkids →
      (distribute_loop nkids input (idx % nkids) shares).getD w [] =
        shares.getD w [] ++ roundRobinSpec nkids w input idx := by
  intro input
  induction input with
  | nil => intro idx shares w _; simp [distribute_loop, roundRobinSpec]
  | cons l rest ih =>
    intro idx shares w hlen
    have hcur : idx % nkids < nkids := Nat.mod_lt _ h
    simp only [distribute_loop]
    rw [cursor_step idx nkids h]
    rw [ih (idx + 1) (send (idx % nkids) l shares) w (by simp [send, hlen])]
    simp only [roundRobinSpec]
    rw [send, getD_set shares (idx % nkids) w _ (by omega)]
    by_cases hw : w = idx % nkids
    · rw [if_pos hw, hw]
      simp
    · rw [if_neg hw, if_neg (fun hx => hw hx.symm)]
      simp

theorem distribute_getD (nkids : Nat) (h : 0 < nkids) (input : List Line) (w : Nat) :
    (distribute nkids input).getD w [] = roundRobinSpec nkids w input 0 := by
  have := distribute_loop_getD nkids h input 0 (List.replicate nkids []) w (by simp)
  rw [Nat.zero_mod] at this
  rw [distribute, this]
  simp

theorem roundRobinSpec_getElem (nkids : Nat) :
    ∀ (input : List Line) (idx k : Nat) (hk : k < input.length),
      input[k] ∈ roundRobinSpec nkids ((idx + k) % nkids) input idx := by
  intro input
  induction input with
  | nil => intro idx k hk; simp at hk
  | cons l rest ih =>
    intro idx k hk
    cases k with
    | zero =>
      simp only [roundRobinSpec, Nat.add_zero, List.getElem_cons_zero]
      simp
    | succ k' =>
      have hk' : k' < rest.length := by simpa using hk
      have := ih (idx + 1) k' hk'
      simp only [roundRobinSpec, List.getElem_cons_succ]
      have harith : idx + (k' + 1) = (idx + 1) + k' := by omega
      rw [harith]
      exact List.mem_append_right _ this

/-! ## Tie-break lemmas for `min_line` -/

theorem min_scan_acc_strict (streams : List (List Line)) :
    ∀ i k0 s0 k s, min_scan streams i (some (k0, s0)) = some (k, s) →
      (k = k0 ∧ s = s0) ∨ strlt s s0 := by
  induction streams with
  | nil =>
    intro i k0 s0 k s h
    injection h with h1
    injection h1 with h2 h3
    exact Or.inl ⟨h2.symm, h3.symm⟩
  | cons stream rest ih =>
    intro i k0 s0 k s h
    cases stream with
    | nil => exact ih (i + 1) k0 s0 k s (by simpa [min_scan] using h)
    | cons c t =>
      by_cases hgt : strcmp s0 c = .gt
      · have h' : min_scan rest (i + 1) (some (i, c)) = some (k, s) := by
          simpa [min_scan, hgt] using h
        have hc : strlt c s0 := (strcmp_gt_iff _ _).mp hgt
        rcases ih (i + 1) i c k s h' with ⟨_, rfl⟩ | hlt
        · exact Or.inr hc
        · exact Or.inr (strlt_trans hlt hc)
      · exact ih (i + 1) k0 s0 k s (by simpa [min_scan, hgt] using h)

theorem min_scan_least (streams : List (List Line)) :
    ∀ i acc k s, (∀ p, acc = some p → p.1 < i) →
      min_scan streams i acc = some (k, s) →
      ∀ j h', j < streams.length → (streams.getD j []).head? = some h' →
        i + j < k → strlt s h' := by
  induction streams with
  | nil => intro i acc k s _ _ j h' hj; simp at hj
  | cons stream rest ih =>
    intro i acc k s hacc h j h' hj hh hik
    cases stream with
    | nil =>
      cases j with
      | zero => simp at hh
      | succ j' =>
        refine ih (i + 1) acc k s (fun p hp => Nat.lt_succ_of_lt (hacc p hp))
          (by simpa [min_scan] using h) j' h' (by simpa using hj)
          (by simpa using hh) (by omega)
    | cons c t =>
      -- the accumulator after this slot
      have main : ∀ (mk : Nat) (ms : Line), mk ≤ i → strle ms c →
          min_scan rest (i + 1) (some (mk, ms)) = some (k, s) →
          strlt s h' ∨ (j ≠ 0) := by
        intro mk ms hmk hmsc h2
        cases j with
        | zero =>
          have hc : h' = c := by simpa using hh.symm
          rcases min_scan_acc_strict rest (i + 1) mk ms k s h2 with ⟨hk1, rfl⟩ | hlt
          · omega
          · exact Or.inl (hc ▸ strlt_of_lt_of_le hlt hmsc)
        | succ j' => exact Or.inr (by omega)
      have tail : ∀ (mk : Nat) (ms : Line), mk ≤ i →
          min_scan rest (i + 1) (some (mk, ms)) = some (k, s) →
          ∀ j', j = j' + 1 → strlt s h' := by
        intro mk ms hmk h2 j' hj'
        subst hj'
        exact ih (i + 1) (some (mk, ms)) k s
          (by rintro p rfl1; injection rfl1 with hp; rw [← hp]; omega)
          h2 j' h' (by simpa using hj) (by simpa using hh) (by omega)
      cases acc with
      | none =>
        have h2 : min_scan rest (i + 1) (some (i, c)) = some (k, s) := by
          simpa [min_scan] using h
        cases j with
        | zero =>
          rcases main i c (le_refl i) (strle_refl c) h2 with hlt | habs
          · exact hlt
          · exact absurd rfl habs
        | succ j' => exact tail i c (le_refl i) h2 j' rfl
      | some p =>
        obtain ⟨mk, ms⟩ := p
        have hmk : mk < i := hacc (mk, ms) rfl
        by_cases hgt : strcmp ms c = .gt
        · have h2 : min_scan rest (i + 1) (some (i, c)) = some (k, s) := by
            simpa [min_scan, hgt] using h
          cases j with
          | zero =>
            rcases main i c (le_refl i) (strle_refl c) h2 with hlt | habs
            · exact hlt
            · exact absurd rfl habs
          | succ j' => exact tail i c (le_refl i) h2 j' rfl
        · have h2 : min_scan rest (i + 1) (some (mk, ms)) = some (k, s) := by
            simpa [min_scan, hgt] using h
          have hmsc : strle ms c := by simpa [strle] using hgt
          cases j with
          | zero =>
            rcases main mk ms (le_of_lt hmk) hmsc h2 with hlt | habs
            · exact hlt
            · exact absurd rfl habs
          | succ j' => exact tail mk ms (le_of_lt hmk) h2 j' rfl

/-! ## Reaping lemmas for `wait_for_kids` -/

theorem foldl_reap_eq_map (events : List (Int × Nat)) :
    ∀ pids : List Int, events.foldl reap_step pids =
      pids.map (fun p => events.foldl (fun q ev => if q = ev.1 then -1 else q) p) := by
  induction events with
  | nil => intro pids; simp
  | cons ev rest ih =>
    intro pids
    simp only [List.foldl_cons]
    rw [ih (reap_step pids ev)]
    simp [reap_step, Function.comp]

theorem foldl_mark_neg_one (events : List (Int × Nat)) :
    events.foldl (fun q ev => if q = ev.1 then -1 else q) (-1) = -1 := by
  induction events with
  | nil => rfl
  | cons ev rest ih => simpa using ih

theorem foldl_mark_of_mem {p : Int} {events : List (Int × Nat)}
    (hp : ∃ ev ∈ events, ev.1 = p) :
    events.foldl (fun q ev => if q = ev.1 then -1 else q) p = -1 := by
  induction events with
  | nil => simp at hp
  | cons ev rest ih =>
    simp only [List.foldl_cons]
    by_cases hc : p = ev.1
    · rw [if_pos hc]
      exact foldl_mark_neg_one rest
    · rw [if_neg hc]
      rcases hp with ⟨ev', hev', hev'p⟩
      rcases List.mem_cons.mp hev' with rfl | hmem
      · exact absurd hev'p.symm hc
      · exact ih ⟨ev', hmem, hev'p⟩

theorem wait_for_kids_covered {pids : List Int} {events : List (Int × Nat)}
    (h : ∀ p ∈ pids, ∃ ev ∈ events, ev.1 = p) :
    wait_for_kids pids events = true := by
  rw [wait_for_kids, foldl_reap_eq_map]
  rw [List.all_eq_true]
  intro x hx
  rw [List.mem_map] at hx
  obtain ⟨p, hp, rfl⟩ := hx
  simp [foldl_mark_of_mem (h p hp)]

/-! ## Rational library lemmas -/

namespace RationalC

theorem iabs_eq (x : Int) : iabs x = (x.natAbs : Int) := by
  unfold iabs
  split
  · rw [Int.ofNat_natAbs_of_nonpos (le_of_lt (by assumption))]
  · rw [Int.natAbs_of_nonneg (not_lt.mp (by assumption))]

theorem gcd_eq_natAbs (x y : Int) : gcd x y = (Nat.gcd x.natAbs y.natAbs : Int) := rfl

theorem natAbs_iabs (x : Int) : (iabs x).natAbs = x.natAbs := by
  unfold iabs
  split <;> simp

theorem natCast_tdiv (m n : Nat) : ((m / n : Nat) : Int) = (m : Int).tdiv (n : Int) := by
  exact_mod_cast Int.ofNat_tdiv m n

theorem gcd_iabs (x y : Int) :
    gcd (iabs x) (iabs y) = ((Nat.gcd x.natAbs y.natAbs : Nat) : Int) := by
  rw [gcd_eq_natAbs, natAbs_iabs, natAbs_iabs]

theorem gcd_ll_loop_dvd : ∀ x y : Int, y ≠ 0 →
    gcd_ll_loop x y ∣ x ∧ gcd_ll_loop x y ∣ y ∧ gcd_ll_loop x y ≠ 0 := by
  intro x y
  induction x, y using gcd_ll_loop.induct with
  | case1 x => intro hy; exact absurd rfl hy
  | case2 x y hy0 r hr =>
    intro _
    have hr' : x.tmod y = 0 := hr
    rw [gcd_ll_loop, dif_neg hy0, if_pos hr']
    exact ⟨Int.dvd_of_tmod_eq_zero hr', dvd_refl y, hy0⟩
  | case3 x y hy0 r hr ih =>
    intro _
    have hr' : ¬ x.tmod y = 0 := hr
    rw [gcd_ll_loop, dif_neg hy0, if_neg hr']
    obtain ⟨hdy, hdr, hne⟩ := ih hr'
    refine ⟨?_, hdy, hne⟩
    calc gcd_ll_loop y (x.tmod y) ∣ y * x.tdiv y + x.tmod y :=
          dvd_add (hdy.mul_right _) hdr
      _ = x := Int.tdiv_add_tmod x y

theorem gcd_ll_dvd (x y : Int) (hx : x ≠ 0) (hy : y ≠ 0) :
    gcd_ll x y ∣ x ∧ gcd_ll x y ∣ y ∧ gcd_ll x y ≠ 0 := by
  rw [gcd_ll, if_neg (by tauto)]
  exact gcd_ll_loop_dvd x y hy

theorem tdiv_ne_zero_of_dvd {a b : Int} (ha : a ≠ 0) (hb : b ≠ 0) (h : b ∣ a) :
    a.tdiv b ≠ 0 := by
  obtain ⟨q, rfl⟩ := h
  rw [Int.mul_tdiv_cancel_left q hb]
  rintro rfl
  simp at ha

theorem tdiv_sign_mul (S : Int) (hS : S = 1 ∨ S = -1) (m g : Nat) :
    (S * (m : Int)).tdiv (g : Int) = S * ((m / g : Nat) : Int) := by
  rcases hS with rfl | rfl
  · rw [one_mul, one_mul, natCast_tdiv]
  · rw [neg_one_mul, neg_one_mul, Int.neg_tdiv, natCast_tdiv]

theorem ri_new_eq (n d : Int) (hn : n ≠ 0) :
    ∃ S : Int, (S = 1 ∨ S = -1) ∧
      ri_new n d =
        { numerator := ((n.natAbs / Nat.gcd n.natAbs d.natAbs : Nat) : Int)
          denominator :=
            S * ((d.natAbs / Nat.gcd n.natAbs d.natAbs : Nat) : Int) } := by
  rw [ri_new, if_neg hn]
  refine ⟨1 - 2 * (if (n < 0 ∧ 0 < d) ∨ (0 < n ∧ d < 0) then 1 else 0), ?_, ?_⟩
  · split <;> norm_num
  · rw [gcd_iabs, iabs_eq n, iabs_eq d]
    dsimp only
    rw [← natCast_tdiv, tdiv_sign_mul _ (by split <;> norm_num) d.natAbs]

theorem ri_chk_new (n d : Int) (hd : d ≠ 0) : ri_chk (ri_new n d) := by
  by_cases hn : n = 0
  · rw [ri_new, if_pos hn]
    exact ⟨one_ne_zero, le_refl 0, Or.inl rfl⟩
  · obtain ⟨S, hS, heq⟩ := ri_new_eq n d hn
    rw [heq]
    unfold ri_chk
    dsimp only
    have hgpos : 0 < Nat.gcd n.natAbs d.natAbs :=
      Nat.gcd_pos_of_pos_left _ (Int.natAbs_pos.mpr hn)
    have hdpos : 0 < d.natAbs / Nat.gcd n.natAbs d.natAbs :=
      Nat.div_pos (Nat.le_of_dvd (Int.natAbs_pos.mpr hd) (Nat.gcd_dvd_right _ _)) hgpos
    refine ⟨?_, ?_, Or.inr ?_⟩
    · rcases hS with rfl | rfl
      · rw [one_mul]
        exact_mod_cast Nat.pos_iff_ne_zero.mp hdpos
      · rw [neg_one_mul, neg_ne_zero]
        exact_mod_cast Nat.pos_iff_ne_zero.mp hdpos
    · exact_mod_cast Nat.zero_le _
    · rw [gcd_eq_natAbs, natAbs_iabs, natAbs_iabs]
      have h1 : ((n.natAbs / Nat.gcd n.natAbs d.natAbs : Nat) : Int).natAbs =
          n.natAbs / Nat.gcd n.natAbs d.natAbs := Int.natAbs_ofNat _
      have h2 : (S * ((d.natAbs / Nat.gcd n.natAbs d.natAbs : Nat) : Int)).natAbs =
          d.natAbs / Nat.gcd n.natAbs d.natAbs := by
        rcases hS with rfl | rfl
        · rw [one_mul]
          exact Int.natAbs_ofNat _
        · rw [neg_one_mul, Int.natAbs_neg]
          exact Int.natAbs_ofNat _
      rw [h1, h2]
      have h3 : Nat.gcd (n.natAbs / Nat.gcd n.natAbs d.natAbs)
          (d.natAbs / Nat.gcd n.natAbs d.natAbs) = 1 :=
        Nat.coprime_div_gcd_div_gcd hgpos
      exact_mod_cast h3

theorem ri_chk_op (rn rd : Int) (hrn : rn ≠ 0) (hrd : rd ≠ 0) :
    ri_chk (ri_new (rn.tdiv (gcd_ll rn rd)) (rd.tdiv (gcd_ll rn rd))) := by
  obtain ⟨_, hdvd, hne⟩ := gcd_ll_dvd rn rd hrn hrd
  exact ri_chk_new _ _ (tdiv_ne_zero_of_dvd hrd hne hdvd)

theorem ri_chk_add (lhs rhs : RationalInt)
    (h1 : lhs.denominator ≠ 0) (h2 : rhs.denominator ≠ 0) :
    ri_chk (ri_add lhs rhs) := by
  rw [ri_add]
  split
  · exact ri_chk_new 0 1 one_ne_zero
  · exact ri_chk_op _ _ (by assumption) (mul_ne_zero h1 h2)

theorem ri_chk_sub (lhs rhs : RationalInt)
    (h1 : lhs.denominator ≠ 0) (h2 : rhs.denominator ≠ 0) :
    ri_chk (ri_sub lhs rhs) := by
  rw [ri_sub]
  split
  · exact ri_chk_new 0 1 one_ne_zero
  · exact ri_chk_op _ _ (by assumption) (mul_ne_zero h1 h2)

theorem ri_chk_mul (lhs rhs : RationalInt)
    (h1 : lhs.denominator ≠ 0) (h2 : rhs.denominator ≠ 0) :
    ri_chk (ri_mul lhs rhs) := by
  rw [ri_mul]
  split
  · exact ri_chk_new 0 1 one_ne_zero
  · exact ri_chk_op _ _ (by assumption) (mul_ne_zero h1 h2)

theorem ri_chk_div (lhs rhs : RationalInt)
    (h1 : lhs.denominator ≠ 0) (h2 : rhs.denominator ≠ 0) (h3 : rhs.numerator ≠ 0) :
    ri_chk (ri_div lhs rhs) := by
  rw [ri_div]
  split
  · exact ri_chk_new 0 1 one_ne_zero
  · exact ri_chk_op _ _ (mul_ne_zero (by assumption) h2) (mul_ne_zero h1 h3)

end RationalC

/-! ## Remaining helper lemmas for the claims -/

theorem strcmp_append_left (x : List Nat) (a b : List Nat) :
    strcmp (x ++ a) (x ++ b) = strcmp a b := by
  induction x with
  | nil => rfl
  | cons c t ih => simp [strcmp, ih]

theorem be_childish_perm_congr {x y : List Line} (h : x ~ y) :
    be_childish x = be_childish y :=
  List.eq_of_perm_of_sorted
    ((perm_be_childish x).trans (h.trans (perm_be_childish y).symm))
    (sorted_be_childish x) (sorted_be_childish y)

theorem sorted_shares (shares : List (List Line)) :
    ∀ t ∈ shares.map be_childish, Sorted strle t := by
  intro t ht
  rw [List.mem_map] at ht
  obtain ⟨u, _, rfl⟩ := ht
  exact sorted_be_childish u

theorem refill_getD_ne {streams : List (List Line)} {k j : Nat}
    (hk : k < streams.length) (hj : j ≠ k) :
    (refill streams k).getD j [] = streams.getD j [] := by
  by_cases hjl : j < streams.length
  · rw [refill, getD_set streams k j _ hk, if_neg hj]
  · rw [List.getD_eq_default _ _ (Nat.le_of_not_lt hjl),
      List.getD_eq_default _ _ (by simpa [refill] using Nat.le_of_not_lt hjl)]

/-! ## The claims -/

/-- C1: for every finite sequence of input lines (newline-terminated records
that fit the 4096-byte `fgets` buffer), the complete pipeline — round-robin
distribution to `nkids ≥ 1` workers, each worker sorting its share with
`qsort`/`strcmp`, then the streaming k-way merge — writes a permutation of
the input lines in non-decreasing lexicographic (byte-wise `strcmp`) order. -/
theorem C1_pipeline_sorts (nkids : Nat) (input : List Line)
    (hn : 0 < nkids) (_hvalid : ∀ l ∈ input, ValidRecord l) :
    pipeline nkids input ~ input ∧ Sorted strle (pipeline nkids input) := by
  constructor
  · calc pipeline nkids input
        ~ ((distribute nkids input).map be_childish).flatten := merge_loop_perm _
      _ ~ (distribute nkids input).flatten := flatten_map_be_childish _
      _ ~ input := distribute_flatten_perm nkids hn input
  · exact merge_loop_sorted _ (sorted_shares _)

/-- C1 witness: the pipeline with 2 workers on the concrete two-line input
"b\n", "a\n". -/
theorem C1_pipeline_sorts_witness :
    (0 : Nat) < 2 ∧ (∀ l ∈ [[98, 10], [97, 10]], ValidRecord l) ∧
      (pipeline 2 [[98, 10], [97, 10]] ~ [[98, 10], [97, 10]] ∧
        Sorted strle (pipeline 2 [[98, 10], [97, 10]])) := by
  have hv : ∀ l ∈ [[98, 10], [97, 10]], ValidRecord l := by
    intro l hl
    rcases List.mem_cons.mp hl with rfl | hl'
    · exact ⟨[98], rfl, by decide, by decide⟩
    · rcases List.mem_cons.mp hl' with rfl | hl''
      · exact ⟨[97], rfl, by decide, by decide⟩
      · simp at hl''
  exact ⟨by decide, hv, C1_pipeline_sorts 2 [[98, 10], [97, 10]] (by decide) hv⟩

/-- C4: for every worker count `N ≥ 1` and every input, sorting each share
with the worker's sort and merging the `N` sorted streams yields exactly the
result of sorting the full concatenation of the shares directly. -/
theorem C4_merge_refines_sort (nkids : Nat) (input : List Line) (_hn : 1 ≤ nkids) :
    merge ((distribute nkids input).map be_childish) =
      be_childish ((distribute nkids input).flatten) := by
  rw [merge_eq_sort (sorted_shares _)]
  exact be_childish_perm_congr (flatten_map_be_childish _)

/-- C4 witness: one worker, two lines. -/
theorem C4_merge_refines_sort_witness :
    merge ((distribute 1 [[98, 10], [97, 10]]).map be_childish) =
      be_childish ((distribute 1 [[98, 10], [97, 10]]).flatten) :=
  C4_merge_refines_sort 1 [[98, 10], [97, 10]] (by decide)

/-- C5: whenever `min_line` selects `(k, s)` (the merge loop then emits `s`
and refills worker `k`), worker `k` is non-exhausted with buffered head `s`,
`s` is no greater than every non-exhausted worker's head, every worker with a
head equal to `s` has index `≥ k` (strictly smaller-indexed heads are
strictly greater), and the loop iteration rewrites exactly
`s :: merge_loop (refill streams k)` — the lowest-index tie-break. -/
theorem C5_tie_break (streams : List (List Line)) (k : Nat) (s : Line)
    (hm : min_line streams = some (k, s)) :
    k < streams.length ∧ (streams.getD k []).head? = some s ∧
      (∀ j h', j < streams.length → (streams.getD j []).head? = some h' →
        strle s h') ∧
      (∀ j h', j < k → (streams.getD j []).head? = some h' → strlt s h') ∧
      (not_all_done streams = true →
        merge_loop streams = s :: merge_loop (refill streams k)) := by
  obtain ⟨hk, hhead⟩ := min_line_some hm
  refine ⟨hk, hhead, ?_, ?_, fun hdone => merge_loop_some_eq hdone hm⟩
  · intro j h' hj hh
    refine min_scan_min streams 0 none k s hm (streams.getD j []) ?_ h' hh
    rw [List.getD_eq_getElem streams [] hj]
    exact List.getElem_mem hj
  · intro j h' hjk hh
    have hj : j < streams.length := lt_trans hjk hk
    exact min_scan_least streams 0 none k s (by rintro p hp; cases hp)
      hm j h' hj hh (by omega)

/-- C5 witness: workers 0 and 1 tie on "a\n"; the scan picks worker 0. -/
theorem C5_tie_break_witness :
    (0 : Nat) < 3 ∧
      (( [[[97, 10]], [[97, 10]], [[98, 10]]] : List (List Line)).getD 0 []).head? =
        some [97, 10] := by
  have h := C5_tie_break [[[97, 10]], [[97, 10]], [[98, 10]]] 0 [97, 10] (by decide)
  exact ⟨h.1, h.2.1⟩

/-- C6: the distributor is exactly round-robin: worker `w`'s share is the
sublist of lines whose 0-based index is `≡ w (mod nkids)` in order
(`roundRobinSpec`), and in particular the `k`-th input line lands in worker
`k % nkids`'s share. -/
theorem C6_round_robin (nkids : Nat) (input : List Line) (hn : 0 < nkids) :
    (∀ w, (distribute nkids input).getD w [] = roundRobinSpec nkids w input 0) ∧
      (∀ k, (hk : k < input.length) →
        input[k] ∈ (distribute nkids input).getD (k % nkids) []) := by
  refine ⟨fun w => distribute_getD nkids hn input w, fun k hk => ?_⟩
  rw [distribute_getD nkids hn input _]
  have := roundRobinSpec_getElem nkids input 0 k hk
  simpa using this

/-- C6 witness: three lines over two workers. -/
theorem C6_round_robin_witness :
    (distribute 2 [[97, 10], [98, 10], [99, 10]]).getD 0 [] =
        roundRobinSpec 2 0 [[97, 10], [98, 10], [99, 10]] 0 ∧
      ([[97, 10], [98, 10], [99, 10]] : List Line)[2] ∈
        (distribute 2 [[97, 10], [98, 10], [99, 10]]).getD (2 % 2) [] := by
  have h := C6_round_robin 2 [[97, 10], [98, 10], [99, 10]] (by decide)
  exact ⟨h.1 0, h.2 2 (by decide)⟩

/-- C7: with zero input lines every worker's share is empty (all inbound
channels close immediately), every worker emits nothing, the merge emits
nothing, and the coordinator exits 0 once all spawned workers are reaped. -/
theorem C7_empty_input (nkids : Nat) (pids : List Int) (events : List (Int × Nat))
    (hcover : ∀ p ∈ pids, ∃ ev ∈ events, ev.1 = p) :
    distribute nkids [] = List.replicate nkids [] ∧
      be_childish [] = [] ∧
      pipeline nkids [] = [] ∧
      main_exit (List.replicate NUM_KIDS true) pids events = (0, none) := by
  refine ⟨rfl, rfl, ?_, ?_⟩
  · show merge ((distribute nkids []).map be_childish) = []
    have h1 : distribute nkids [] = List.replicate nkids [] := rfl
    rw [h1, List.map_replicate]
    apply merge_loop_not_eq
    rw [not_all_done]
    simp
    intro _
    rfl
  · have hsp : spawn_failure (List.replicate NUM_KIDS true) = none := by decide
    simp [main_exit, hsp, wait_for_kids_covered hcover]

/-- C7 witness: three workers, all five children reaped normally. -/
theorem C7_empty_input_witness :
    distribute 3 [] = List.replicate 3 [] ∧
      be_childish [] = [] ∧
      pipeline 3 [] = [] ∧
      main_exit (List.replicate NUM_KIDS true) [1, 2, 3, 4, 5]
        [(1, 0), (2, 0), (3, 0), (4, 0), (5, 0)] = (0, none) :=
  C7_empty_input 3 [1, 2, 3, 4, 5] [(1, 0), (2, 0), (3, 0), (4, 0), (5, 0)]
    (by decide)

/-- C10: under the merge-loop guard `not_all_done` (some slot holds a
buffered line), `min_line` finds a minimum: its result is `some (k, s)` with
worker `k`'s stream nonempty, so `min_str` is non-null and the `strcpy` into
the output buffer copies from a real line. -/
theorem C10_min_line_safe (streams : List (List Line))
    (h : not_all_done streams = true) :
    ∃ k s, min_line streams = some (k, s) ∧ streams.getD k [] ≠ [] := by
  cases hm : min_line streams with
  | none =>
    obtain ⟨t, ht, hne⟩ := (not_all_done_iff streams).mp h
    exact absurd (min_scan_none streams 0 hm t ht) hne
  | some p =>
    obtain ⟨k, s⟩ := p
    have hks := min_line_some hm
    refine ⟨k, s, rfl, fun hnil => ?_⟩
    rw [hnil] at hks
    simp at hks

/-- C10 witness: worker 0 exhausted, worker 1 holding "a\n". -/
theorem C10_min_line_safe_witness :
    not_all_done [[], [[97, 10]]] = true ∧
      ∃ k s, min_line [[], [[97, 10]]] = some (k, s) ∧
        ([[], [[97, 10]]] : List (List Line)).getD k [] ≠ [] :=
  ⟨by decide, C10_min_line_safe [[], [[97, 10]]] (by decide)⟩

/-- C2 counterexample: all five workers spawn; the worker with pid 1 exits
abnormally (status 1, its reap event is `(1, 1)`), yet the coordinator exits
`0` with no diagnostic — `wait_for_kids` never examines the `status` that
`waitpid` fills in, so an abnormal worker exit cannot make the exit code
non-zero as the claim states. -/
theorem C2_exit_code_counterexample :
    main_exit [true, true, true, true, true] [1, 2, 3, 4, 5]
      [(1, 1), (2, 0), (3, 0), (4, 0), (5, 0)] = (0, none) := by decide

/-- C2 amended: the coordinator exits `1` naming worker `i` when worker `i`
is the first that failed to start, and exits `0` whenever all workers
spawned and every worker was reaped — regardless of the workers' exit
statuses, which `wait_for_kids` ignores (the third conjunct: replacing every
reaped status by anything leaves the exit behaviour unchanged). -/
theorem C2_exit_code_amended (spawn_ok : List Bool) (pids : List Int)
    (events : List (Int × Nat)) (f : Int × Nat → Nat) :
    (∀ i, spawn_failure spawn_ok = some i →
      main_exit spawn_ok pids events = (1, some i)) ∧
      (spawn_failure spawn_ok = none → (∀ p ∈ pids, ∃ ev ∈ events, ev.1 = p) →
        main_exit spawn_ok pids events = (0, none)) ∧
      main_exit spawn_ok pids events =
        main_exit spawn_ok pids (events.map (fun ev => (ev.1, f ev))) := by
  refine ⟨?_, ?_, ?_⟩
  · intro i hi
    rw [main_exit, hi]
  · intro hnone hcover
    rw [main_exit, hnone]
    simp [wait_for_kids_covered hcover]
  · have hw : wait_for_kids pids (events.map (fun ev => (ev.1, f ev))) =
        wait_for_kids pids events := by
      rw [wait_for_kids, wait_for_kids, foldl_reap_eq_map, foldl_reap_eq_map]
      have : ∀ p : Int,
          (events.map (fun ev => (ev.1, f ev))).foldl
              (fun q ev => if q = ev.1 then -1 else q) p =
            events.foldl (fun q ev => if q = ev.1 then -1 else q) p := by
        intro p
        induction events generalizing p with
        | nil => rfl
        | cons ev rest ih => simp [ih]
      simp [this]
    rw [main_exit, main_exit, hw]

/-- C2 amended witness: a failed spawn of worker 1 exits `(1, some 1)`; two
workers reaped (one abnormally) exit `(0, none)`. -/
theorem C2_exit_code_amended_witness :
    main_exit [true, false] [] [] = (1, some 1) ∧
      main_exit [true, true] [5, 6] [(5, 2), (6, 0)] = (0, none) :=
  ⟨(C2_exit_code_amended [true, false] [] [] Prod.snd).1 1 (by decide),
    (C2_exit_code_amended [true, true] [5, 6] [(5, 2), (6, 0)] Prod.snd).2.1
      (by decide) (by decide)⟩

/-- C3 counterexample: the content bytes `[97]` ("a") are a strict prefix of
`[97, 9, 98]` ("a", tab, "b"), yet the worker's comparator `qs_compare`
(`strcmp` on the newline-terminated stored lines) orders the shorter line
*after* the longer one, because the newline byte 10 that terminates the
stored line exceeds the tab byte 9 at the divergence point. -/
theorem C3_prefix_counterexample :
    qs_compare ([97] ++ [10]) (([97] ++ [9, 98]) ++ [10]) = .gt ∧
      ¬ strle ([97] ++ [10]) (([97] ++ [9, 98]) ++ [10]) := by decide

/-- C3 amended: the worker sorts by byte-wise `strcmp` on the
newline-terminated stored lines (case-sensitive); when one line's content is
a strict prefix of another's, the shorter line sorts first provided the
longer line's first byte past the common prefix exceeds the newline byte 10
(in particular for all printable text); and lines compare equal only when
their contents are byte-identical. -/
theorem C3_order_amended (c r : List Nat) (b : Nat) (hb : 10 < b) :
    strlt (c ++ [10]) (c ++ (b :: r) ++ [10]) ∧
      (∀ c', strcmp (c ++ [10]) (c' ++ [10]) = .eq → c = c') := by
  constructor
  · unfold strlt
    rw [List.append_assoc, strcmp_append_left]
    simp [strcmp, hb, Nat.lt_asymm hb]
  · intro c' heq
    have := strcmp_eq_eq _ _ heq
    exact List.append_inj_left' this rfl

/-- C3 amended witness: "a\n" sorts before "ab\n". -/
theorem C3_order_amended_witness :
    strlt ([97] ++ [10]) ([97] ++ (98 :: []) ++ [10]) ∧
      (∀ c', strcmp ([97] ++ [10]) (c' ++ [10]) = .eq → [97] = c') :=
  C3_order_amended [97] [] 98 (by decide)

/-- C8: merge-frontier invariant.  A worker slot during the merge is its
remaining sorted stream; the single buffered head line is `head?` of that
stream (at most one line is buffered per worker by construction of the
model, mirroring `lines[i]`).  Every non-exhausted slot's buffered head is
`strle`-least among that worker's not-yet-emitted lines, and a merge step —
`min_line` returning `(k, s)` — only ever selects a non-exhausted worker,
changes no other slot when refilling `k`, and preserves sortedness of every
slot; an exhausted (empty) slot is never read from again. -/
theorem C8_frontier_invariant (streams : List (List Line))
    (hs : ∀ t ∈ streams, Sorted strle t) :
    (∀ t ∈ streams, ∀ h', t.head? = some h' → ∀ x ∈ t, strle h' x) ∧
      (∀ k s, min_line streams = some (k, s) →
        streams.getD k [] ≠ [] ∧
          (∀ j, j ≠ k → (refill streams k).getD j [] = streams.getD j []) ∧
          (∀ t ∈ refill streams k, Sorted strle t)) := by
  constructor
  · intro t ht h' hh x hx
    cases t with
    | nil => simp at hh
    | cons a t0 =>
      have ha : h' = a := by simpa using hh.symm
      rw [ha]
      rcases List.mem_cons.mp hx with rfl | hx'
      · exact strle_refl x
      · exact List.rel_of_sorted_cons (hs _ ht) x hx'
  · intro k s hm
    obtain ⟨hk, hhead⟩ := min_line_some hm
    refine ⟨fun hnil => by rw [hnil] at hhead; simp at hhead,
      fun j hj => refill_getD_ne hk hj, sorted_refill hs⟩

/-- C8 witness: two workers, the first holding two sorted lines, the second
exhausted. -/
theorem C8_frontier_invariant_witness :
    (∀ t ∈ ([[[97, 10], [98, 10]], []] : List (List Line)), Sorted strle t) ∧
      (∀ t ∈ ([[[97, 10], [98, 10]], []] : List (List Line)),
        ∀ h', t.head? = some h' → ∀ x ∈ t, strle h' x) := by
  have hs : ∀ t ∈ ([[[97, 10], [98, 10]], []] : List (List Line)), Sorted strle t := by
    intro t ht
    rcases List.mem_cons.mp ht with rfl | ht'
    · exact List.sorted_cons.mpr ⟨by intro b hb; simp at hb; rw [hb]; decide,
        List.sorted_singleton _⟩
    · rcases List.mem_cons.mp ht' with rfl | ht''
      · simp
      · simp at ht''
  exact ⟨hs, (C8_frontier_invariant _ hs).1⟩

namespace RationalC

/-- C9: every `RationalInt` produced by `ri_new` (on a nonzero denominator,
as asserted) or by `ri_add`/`ri_sub`/`ri_mul` (on operands with nonzero
denominators) or by `ri_div` (additionally nonzero divisor numerator, as
asserted) satisfies the storage rules `ri_chk` checks: the denominator is
nonzero (it carries the sign, the numerator being nonnegative), and
numerator and denominator are in lowest terms unless the numerator is 0. -/
theorem C9_normalisation_invariants :
    (∀ n d : Int, d ≠ 0 → ri_chk (ri_new n d)) ∧
      (∀ a b : RationalInt, a.denominator ≠ 0 → b.denominator ≠ 0 →
        ri_chk (ri_add a b) ∧ ri_chk (ri_sub a b) ∧ ri_chk (ri_mul a b)) ∧
      (∀ a b : RationalInt, a.denominator ≠ 0 → b.denominator ≠ 0 →
        b.numerator ≠ 0 → ri_chk (ri_div a b)) :=
  ⟨ri_chk_new,
    fun a b h1 h2 => ⟨ri_chk_add a b h1 h2, ri_chk_sub a b h1 h2, ri_chk_mul a b h1 h2⟩,
    ri_chk_div⟩

/-- C9 witness: `ri_new 6 (-8)` (the test table's 3 over -4 case) and the
sum of 14 over -9 and 12 over -7 (the test table's 206 over -63 case)
satisfy the storage rules. -/
theorem C9_normalisation_invariants_witness :
    ((-8 : Int) ≠ 0 ∧ ri_chk (ri_new 6 (-8))) ∧
      ri_chk (ri_add { numerator := 14, denominator := -9 }
        { numerator := 12, denominator := -7 }) :=
  ⟨⟨by decide, C9_normalisation_invariants.1 6 (-8) (by decide)⟩,
    (C9_normalisation_invariants.2.1 { numerator := 14, denominator := -9 }
      { numerator := 12, denominator := -7 } (by decide) (by decide)).1⟩

end RationalC
